import Mathlib

/-!
Verification of the split conformal prediction core exercised by
`equalized_coverage_example.ipynb` (equalized-coverage conformal
prediction on the MEPS data set).

Real numbers are modelled as rationals `ℚ`.  The notebook's own code
(the proper-train/calibration index split, the group conditioning
function, the orchestration of the runs) is embedded directly from the
notebook cells.  The library routines the notebook calls
(`helper.run_icp`, `helper.run_icp_sep`, the nonconformity error
functions of the `nonconformist` package) are not part of the notebook
file; they are modelled from the specification, as marked in the
individual doc comments.  The fitted regression model is opaque in the
specification, so model predictions appear as explicit inputs
(a point prediction `ŷ`, or a quantile pair `(ŷ_low, ŷ_high)`).
-/

namespace EqualizedCoverage

/-- The group conditioning function of the notebook:
`def condition(x, y=None): return int(x[0][-1]>0)`.
The argument is a pair of a feature vector and an optional response; the
race attribute is the last feature of the feature vector `x[0]`, and the
second component of the pair is ignored.  The function is defined on
pairs whose feature list is nonempty (the feature domain of the program
has `p = 139 ≥ 1` columns; Python's `x[0][-1]` is undefined on an empty
vector). -/
def condition (xy : List ℚ × Option ℚ) (h : xy.1 ≠ []) : ℕ :=
  if 0 < xy.1.getLast h then 1 else 0

/-- Notebook split cell: `n_half = int(np.floor(n_train/2))`. -/
def nHalf (nTrain : ℕ) : ℕ := nTrain / 2

/-- Notebook split cell: `idx_train = idx[:n_half]`, where `idx` is the
random permutation `np.random.permutation(n_train)`. -/
def idxTrain (idx : List ℕ) (nTrain : ℕ) : List ℕ := idx.take (nHalf nTrain)

/-- Notebook split cell: `idx_cal = idx[n_half:2*n_half]` (the Python
slice keeps `2*n_half - n_half = n_half` entries after dropping the
first `n_half`). -/
def idxCal (idx : List ℕ) (nTrain : ℕ) : List ℕ :=
  (idx.drop (nHalf nTrain)).take (nHalf nTrain)

/-- Modelled from the spec: the finite-sample-corrected rank
`⌈(1−α)(n+1)⌉` used for the calibration quantile (`helper.run_icp` and
the `nonconformist` error functions are not part of the notebook
source). -/
def conformalRank (α : ℚ) (n : ℕ) : ℕ := (⌈(1 - α) * ((n : ℚ) + 1)⌉).toNat

/-- Modelled from the spec: the calibration threshold is the
`⌈(1−α)(n+1)⌉`-th smallest calibration score, the rank being clipped to
at most `n`; when the rank exceeds the number of available scores the
maximum score is used (`helper.run_icp` internals are not part of the
notebook source). -/
def conformalThreshold (α : ℚ) (scores : List ℚ) : ℚ :=
  (List.insertionSort (· ≤ ·) scores).getD
    (min (conformalRank α scores.length) scores.length - 1) 0

/-- Modelled from the spec: absolute-residual nonconformity score
`|y − ŷ|` (the sign-error scorer's signed residual `ŷ − y`, of which the
downstream consumer takes the absolute value for symmetric intervals). -/
def absScore (yhat y : ℚ) : ℚ := |y - yhat|

/-- Modelled from the spec: the interval `[ŷ − q, ŷ + q]` for
absolute-residual scoring. -/
def absInterval (yhat q : ℚ) : ℚ × ℚ := (yhat - q, yhat + q)

/-- Modelled from the spec: quantile-residual nonconformity score
`max(ŷ_low − y, y − ŷ_high)`. -/
def quantileScore (lo hi y : ℚ) : ℚ := max (lo - y) (y - hi)

/-- Modelled from the spec: the interval `[ŷ_low − q, ŷ_high + q]` for
quantile-residual scoring. -/
def quantileInterval (lo hi q : ℚ) : ℚ × ℚ := (lo - q, hi + q)

/-- Modelled from the spec: marginal mode pools all calibration scores
and derives one global threshold; every test prediction receives the
interval `[ŷ − q, ŷ + q]` with that same threshold.  Calibration
examples are (prediction, response) pairs. -/
def runMarginalAbs (α : ℚ) (cal : List (ℚ × ℚ)) (test : List ℚ) :
    List (ℚ × ℚ) :=
  test.map fun yhat =>
    absInterval yhat (conformalThreshold α (cal.map fun e => absScore e.1 e.2))

/-- Modelled from the spec: marginal mode for quantile-residual (CQR)
scoring.  Calibration examples are ((low, high), response) triples and
test examples are (low, high) quantile predictions. -/
def runMarginalQuantile (α : ℚ) (cal : List ((ℚ × ℚ) × ℚ))
    (test : List (ℚ × ℚ)) : List (ℚ × ℚ) :=
  test.map fun p =>
    quantileInterval p.1 p.2
      (conformalThreshold α (cal.map fun e => quantileScore e.1.1 e.1.2 e.2))

/-- Error taxonomy of the spec relevant to prediction:
`InsufficientCalibrationDataError` for a group observed at prediction
time with an empty calibration subset. -/
inductive ConformalError
  | insufficientCalibrationData
deriving DecidableEq

/-- Modelled from the spec: the calibration scores of one group — the
scores of the labelled calibration examples carrying that group label. -/
def groupScores (cal : List (ℕ × ℚ)) (g : ℕ) : List ℚ :=
  (cal.filter fun e => e.1 == g).map fun e => e.2

/-- Modelled from the spec: the per-group threshold in joint-conditional
and groupwise modes; a group with an empty calibration subset is a fatal
configuration error. -/
def groupThreshold (α : ℚ) (cal : List (ℕ × ℚ)) (g : ℕ) :
    Except ConformalError ℚ :=
  if groupScores cal g = [] then Except.error ConformalError.insufficientCalibrationData
  else Except.ok (conformalThreshold α (groupScores cal g))

/-- Modelled from the spec: grouped prediction (joint-conditional and
groupwise modes share this shape; they differ only in which opaque model
produced the predictions).  Calibration examples are
(group, prediction, response) triples; each test example
(group, prediction) is routed to its group's threshold, and a test group
with no calibration example fails with
`InsufficientCalibrationDataError` instead of falling back to marginal
behaviour. -/
def runGroupedAbs (α : ℚ) (cal : List (ℕ × ℚ × ℚ)) :
    List (ℕ × ℚ) → Except ConformalError (List (ℚ × ℚ))
  | [] => Except.ok []
  | t :: ts => do
    let q ← groupThreshold α (cal.map fun e => (e.1, absScore e.2.1 e.2.2)) t.1
    let rest ← runGroupedAbs α cal ts
    pure (absInterval t.2 q :: rest)

/-- Result record of one complete pipeline run: the two split index
sets, the calibration threshold, and the prediction intervals. -/
structure RunResult where
  train : List ℕ
  cal : List ℕ
  threshold : ℚ
  intervals : List (ℚ × ℚ)
deriving DecidableEq

/-- Modelled from the spec: the complete marginal pipeline with the
random source made explicit — the permutation produced by the seeded
generator is threaded in as a value (spec §5/§9: seeding is the only
nondeterminism source, and global random state is replaced by an
explicit random-source value).  `data` holds a (prediction, response)
pair per proper-training example; the calibration scores are taken at
the calibration indices of the split. -/
def pipelineAbs (perm : List ℕ) (data : List (ℚ × ℚ)) (α : ℚ)
    (test : List ℚ) : RunResult :=
  let n := data.length
  let tr := idxTrain perm n
  let ca := idxCal perm n
  let scores := ca.filterMap fun i => (data.get? i).map fun e => absScore e.1 e.2
  let q := conformalThreshold α scores
  ⟨tr, ca, q, test.map fun yhat => absInterval yhat q⟩

/-! General helper lemmas. -/

theorem getD_eq_getElem_of_lt (l : List ℚ) (i : ℕ) (h : i < l.length) :
    l.getD i 0 = l[i] := by
  rw [List.getD_eq_getElem?_getD, List.getElem?_eq_getElem h]; rfl

theorem sorted_getElem_le_of_mem_drop (l : List ℚ)
    (hl : List.Sorted (· ≤ ·) l) (n : ℕ) (hn : n < l.length) (x : ℚ)
    (hx : x ∈ l.drop n) : l[n] ≤ x := by
  obtain ⟨k, hk, hget⟩ := List.getElem_of_mem hx
  rw [List.getElem_drop] at hget
  subst hget
  rcases Nat.eq_or_lt_of_le (Nat.le_add_right n k) with h2 | h2
  · exact le_of_eq (by congr 1)
  · exact List.pairwise_iff_getElem.mp hl n (n + k) _ _ h2

theorem mem_take_le_sorted_getElem (l : List ℚ)
    (hl : List.Sorted (· ≤ ·) l) (n : ℕ) (hn : n < l.length) (x : ℚ)
    (hx : x ∈ l.take (n + 1)) : x ≤ l[n] := by
  obtain ⟨k, hk, hget⟩ := List.getElem_of_mem hx
  rw [List.getElem_take] at hget
  subst hget
  have hk2 : k < n + 1 := by
    simp only [List.length_take] at hk; omega
  rcases Nat.eq_or_lt_of_le (Nat.le_of_lt_succ hk2) with h2 | h2
  · exact le_of_eq (by congr 1)
  · exact List.pairwise_iff_getElem.mp hl k n _ _ h2

/-! Helper lemmas about the conformal rank and threshold. -/

theorem conformalRank_pos (α : ℚ) (n : ℕ) (h1 : α < 1) :
    1 ≤ conformalRank α n := by
  have hx : (0 : ℚ) < (1 - α) * ((n : ℚ) + 1) := by
    apply mul_pos (by linarith)
    have : (0 : ℚ) ≤ (n : ℚ) := Nat.cast_nonneg n
    linarith
  have := Int.ceil_pos.mpr hx
  unfold conformalRank
  omega

theorem conformalRank_antitone (α α2 : ℚ) (n : ℕ) (h : α ≤ α2) :
    conformalRank α2 n ≤ conformalRank α n := by
  unfold conformalRank
  have hle : (1 - α2) * ((n : ℚ) + 1) ≤ (1 - α) * ((n : ℚ) + 1) := by
    apply mul_le_mul_of_nonneg_right (by linarith)
    have : (0 : ℚ) ≤ (n : ℚ) := Nat.cast_nonneg n
    linarith
  exact Int.toNat_le_toNat (Int.ceil_le_ceil hle)

theorem conformalRank_le_of_rankBound (α : ℚ) (n : ℕ) (h1 : α ≤ 1) :
    (1 - α) * ((n : ℚ) + 1) ≤ (conformalRank α n : ℚ) := by
  unfold conformalRank
  have hnn : (0 : ℤ) ≤ ⌈(1 - α) * ((n : ℚ) + 1)⌉ := by
    apply Int.ceil_nonneg
    apply mul_nonneg (by linarith)
    have : (0 : ℚ) ≤ (n : ℚ) := Nat.cast_nonneg n
    linarith
  calc (1 - α) * ((n : ℚ) + 1) ≤ (⌈(1 - α) * ((n : ℚ) + 1)⌉ : ℚ) := Int.le_ceil _
    _ = ((⌈(1 - α) * ((n : ℚ) + 1)⌉.toNat : ℤ) : ℚ) := by
        rw [Int.toNat_of_nonneg hnn]
    _ = ((⌈(1 - α) * ((n : ℚ) + 1)⌉.toNat : ℕ) : ℚ) := by push_cast; ring

theorem threshold_index_lt (α : ℚ) (scores : List ℚ) (h : scores ≠ []) :
    min (conformalRank α scores.length) scores.length - 1 <
      (List.insertionSort (· ≤ ·) scores).length := by
  have hn : 0 < scores.length := List.length_pos.mpr h
  have hlen : (List.insertionSort (· ≤ ·) scores).length = scores.length :=
    (List.perm_insertionSort (· ≤ ·) scores).length_eq
  omega

theorem conformalThreshold_eq_sorted_getElem (α : ℚ) (scores : List ℚ)
    (h : scores ≠ []) :
    conformalThreshold α scores =
      (List.insertionSort (· ≤ ·) scores).get
        ⟨min (conformalRank α scores.length) scores.length - 1,
          threshold_index_lt α scores h⟩ := by
  unfold conformalThreshold
  rw [getD_eq_getElem_of_lt _ _ (threshold_index_lt α scores h)]
  rfl

theorem conformalThreshold_mem (α : ℚ) (scores : List ℚ) (h : scores ≠ []) :
    conformalThreshold α scores ∈ scores := by
  rw [conformalThreshold_eq_sorted_getElem α scores h]
  exact (List.perm_insertionSort (· ≤ ·) scores).subset
    (List.get_mem _ _ _)

theorem le_countP_le_conformalThreshold (α : ℚ) (scores : List ℚ)
    (h1 : α < 1) (h : scores ≠ []) :
    min (conformalRank α scores.length) scores.length ≤
      scores.countP fun v => decide (v ≤ conformalThreshold α scores) := by
  set s := List.insertionSort (· ≤ ·) scores with hs
  have hperm : s.Perm scores := List.perm_insertionSort (· ≤ ·) scores
  have hsorted : List.Sorted (· ≤ ·) s := List.sorted_insertionSort (· ≤ ·) scores
  have hn : 0 < scores.length := List.length_pos.mpr h
  have hlen : s.length = scores.length := hperm.length_eq
  set m := min (conformalRank α scores.length) scores.length with hm
  have hm1 : 1 ≤ m := by
    have := conformalRank_pos α scores.length h1
    omega
  have hidx : m - 1 < s.length := threshold_index_lt α scores h
  rw [← hperm.countP_eq]
  have htake : ∀ x ∈ s.take (m - 1 + 1), x ≤ conformalThreshold α scores := by
    intro x hx
    rw [conformalThreshold_eq_sorted_getElem α scores h]
    exact mem_take_le_sorted_getElem s hsorted (m - 1) hidx x hx
  calc m = (s.take (m - 1 + 1)).length := by
        rw [List.length_take]; omega
    _ = (s.take (m - 1 + 1)).countP
          (fun v => decide (v ≤ conformalThreshold α scores)) :=
        (List.countP_eq_length.mpr fun a ha => decide_eq_true (htake a ha)).symm
    _ ≤ s.countP (fun v => decide (v ≤ conformalThreshold α scores)) :=
        (List.take_sublist _ _).countP_le _

theorem le_countP_conformalThreshold_le (α : ℚ) (scores : List ℚ)
    (h1 : α < 1) (h : scores ≠ []) :
    scores.length - min (conformalRank α scores.length) scores.length + 1 ≤
      scores.countP fun v => decide (conformalThreshold α scores ≤ v) := by
  set s := List.insertionSort (· ≤ ·) scores with hs
  have hperm : s.Perm scores := List.perm_insertionSort (· ≤ ·) scores
  have hsorted : List.Sorted (· ≤ ·) s := List.sorted_insertionSort (· ≤ ·) scores
  have hn : 0 < scores.length := List.length_pos.mpr h
  have hlen : s.length = scores.length := hperm.length_eq
  set m := min (conformalRank α scores.length) scores.length with hm
  have hm1 : 1 ≤ m := by
    have := conformalRank_pos α scores.length h1
    omega
  have hmn : m ≤ scores.length := by omega
  have hidx : m - 1 < s.length := threshold_index_lt α scores h
  rw [← hperm.countP_eq]
  have hdrop : ∀ x ∈ s.drop (m - 1), conformalThreshold α scores ≤ x := by
    intro x hx
    rw [conformalThreshold_eq_sorted_getElem α scores h]
    exact sorted_getElem_le_of_mem_drop s hsorted (m - 1) hidx x hx
  calc scores.length - m + 1 = (s.drop (m - 1)).length := by
        rw [List.length_drop]; omega
    _ = (s.drop (m - 1)).countP
          (fun v => decide (conformalThreshold α scores ≤ v)) :=
        (List.countP_eq_length.mpr fun a ha => decide_eq_true (hdrop a ha)).symm
    _ ≤ s.countP (fun v => decide (conformalThreshold α scores ≤ v)) :=
        (List.drop_sublist _ _).countP_le _

theorem conformalThreshold_isMax_of_rank_gt (α : ℚ) (scores : List ℚ)
    (h : scores ≠ []) (hgt : scores.length < conformalRank α scores.length) :
    ∀ x ∈ scores, x ≤ conformalThreshold α scores := by
  intro x hx
  set s := List.insertionSort (· ≤ ·) scores with hs
  have hperm : s.Perm scores := List.perm_insertionSort (· ≤ ·) scores
  have hsorted : List.Sorted (· ≤ ·) s := List.sorted_insertionSort (· ≤ ·) scores
  have hn : 0 < scores.length := List.length_pos.mpr h
  have hlen : s.length = scores.length := hperm.length_eq
  have hidx : min (conformalRank α scores.length) scores.length - 1 < s.length :=
    threshold_index_lt α scores h
  rw [conformalThreshold_eq_sorted_getElem α scores h]
  have hxmem : x ∈ s.take (min (conformalRank α scores.length) scores.length - 1 + 1) := by
    have : s.take (min (conformalRank α scores.length) scores.length - 1 + 1) = s := by
      apply List.take_of_length_le
      omega
    rw [this]
    exact hperm.mem_iff.mpr hx
  exact mem_take_le_sorted_getElem s hsorted _ hidx x hxmem

theorem conformalThreshold_antitone (α α2 : ℚ) (scores : List ℚ)
    (h : scores ≠ []) (hle : α ≤ α2) (h2 : α2 < 1) :
    conformalThreshold α2 scores ≤ conformalThreshold α scores := by
  set s := List.insertionSort (· ≤ ·) scores with hs
  have hsorted : List.Sorted (· ≤ ·) s := List.sorted_insertionSort (· ≤ ·) scores
  have hn : 0 < scores.length := List.length_pos.mpr h
  have hlen : s.length = scores.length :=
    (List.perm_insertionSort (· ≤ ·) scores).length_eq
  rw [conformalThreshold_eq_sorted_getElem α scores h,
    conformalThreshold_eq_sorted_getElem α2 scores h]
  have hrank := conformalRank_antitone α α2 scores.length hle
  have h1 := conformalRank_pos α2 scores.length h2
  simp only [List.get_eq_getElem]
  rcases Nat.eq_or_lt_of_le
      (show min (conformalRank α2 scores.length) scores.length - 1 ≤
        min (conformalRank α scores.length) scores.length - 1 by omega) with he | hlt
  · exact le_of_eq (by congr 1)
  · exact List.pairwise_iff_getElem.mp hsorted _ _ _ _ hlt

/-! Claim theorems. -/

/-- C3 (amended): for `n` proper-training examples and a random
permutation `idx` of their indices, the notebook split produces disjoint
index sets `idx_train` and `idx_cal`, each of size `⌊n/2⌋`, determined by
the permutation; when `n` is even every proper-training example is
assigned to exactly one of the two sets (when `n` is odd, the example in
the last position of the permutation lands in neither set). -/
theorem split_disjoint_equal_sizes (n : ℕ) (idx : List ℕ)
    (hp : idx.Perm (List.range n)) :
    (idxTrain idx n).length = n / 2 ∧ (idxCal idx n).length = n / 2 ∧
    (∀ j ∈ idxTrain idx n, j ∉ idxCal idx n) ∧
    (n % 2 = 0 → ∀ j < n, (j ∈ idxTrain idx n ↔ j ∉ idxCal idx n)) := by
  have hlen : idx.length = n := hp.length_eq.trans (List.length_range n)
  have hnod : idx.Nodup := hp.nodup_iff.mpr (List.nodup_range n)
  have hsplit : idx.take (nHalf n) ++ idx.drop (nHalf n) = idx :=
    List.take_append_drop (nHalf n) idx
  have hnod2 : (idx.take (nHalf n) ++ idx.drop (nHalf n)).Nodup := by
    rw [hsplit]; exact hnod
  have hdisj : (idx.take (nHalf n)).Disjoint (idx.drop (nHalf n)) :=
    ((List.nodup_append).mp hnod2).2.2
  have hmemcal : ∀ j ∈ idxCal idx n, j ∈ idx.drop (nHalf n) := by
    intro j hj
    exact List.mem_of_mem_take hj
  refine ⟨?_, ?_, ?_, ?_⟩
  · simp only [idxTrain, nHalf, List.length_take, hlen]
    omega
  · simp only [idxCal, nHalf, List.length_take, List.length_drop, hlen]
    omega
  · intro j hjt hjc
    exact hdisj hjt (hmemcal j hjc)
  · intro heven j hj
    have hcal_eq : idxCal idx n = idx.drop (nHalf n) := by
      apply List.take_of_length_le
      simp only [List.length_drop, hlen, nHalf]
      omega
    have hjidx : j ∈ idx := hp.mem_iff.mpr (List.mem_range.mpr hj)
    constructor
    · intro hjt hjc
      exact hdisj hjt (hmemcal j hjc)
    · intro hjc
      rw [← hsplit] at hjidx
      rcases List.mem_append.mp hjidx with hc | hc
      · exact hc
      · exact absurd (hcal_eq ▸ hc) hjc

/-- C3 counterexample: the claim as stated says every proper-training
example is assigned to exactly one of the two sets, but for odd `n` the
example in the last position of the permutation is assigned to neither:
with `n = 3` and the (valid) permutation `[0, 1, 2]`, index `2` is in
neither `idx_train = [0]` nor `idx_cal = [1]`. -/
theorem split_partition_counterexample :
    ([0, 1, 2] : List ℕ).Perm (List.range 3) ∧
    idxTrain [0, 1, 2] 3 = [0] ∧ idxCal [0, 1, 2] 3 = [1] ∧
    2 ∉ idxTrain [0, 1, 2] 3 ∧ 2 ∉ idxCal [0, 1, 2] 3 := by decide

/-- C10: the group conditioning function is total on the feature domain
(nonempty feature vectors) and binary-valued, and depends only on the
last feature component: any two inputs agreeing in their last feature
receive the same group label, regardless of all other feature components
and of the optional response component. -/
theorem condition_binary_depends_only_on_last :
    ∀ (xy : List ℚ × Option ℚ) (h : xy.1 ≠ []),
      (condition xy h = 0 ∨ condition xy h = 1) ∧
      ∀ (xy2 : List ℚ × Option ℚ) (h2 : xy2.1 ≠ []),
        xy.1.getLast h = xy2.1.getLast h2 → condition xy h = condition xy2 h2 := by
  intro xy h
  constructor
  · unfold condition
    split
    · right; rfl
    · left; rfl
  · intro xy2 h2 heq
    unfold condition
    rw [heq]

/-- C10 witness: the theorem applied at the concrete inputs
`([1], none)` and `([5, 1], some 2)`, which agree in their last
feature. -/
theorem condition_binary_depends_only_on_last_witness :
    (condition ([(1 : ℚ)], none) (by decide) = 0 ∨
      condition ([(1 : ℚ)], none) (by decide) = 1) ∧
    condition ([(1 : ℚ)], none) (by decide) =
      condition ([(5 : ℚ), (1 : ℚ)], some 2) (by decide) := by
  refine ⟨(condition_binary_depends_only_on_last ([(1 : ℚ)], none) (by decide)).1, ?_⟩
  exact (condition_binary_depends_only_on_last ([(1 : ℚ)], none) (by decide)).2
    ([(5 : ℚ), (1 : ℚ)], some 2) (by decide) (by decide)

/-- C3 witness: the split theorem applied at `n = 4` with the concrete
permutation `[2, 0, 3, 1]`. -/
theorem split_disjoint_equal_sizes_witness :
    ([2, 0, 3, 1] : List ℕ).Perm (List.range 4) ∧
    ((idxTrain [2, 0, 3, 1] 4).length = 4 / 2 ∧
     (idxCal [2, 0, 3, 1] 4).length = 4 / 2 ∧
     (∀ j ∈ idxTrain [2, 0, 3, 1] 4, j ∉ idxCal [2, 0, 3, 1] 4) ∧
     (4 % 2 = 0 → ∀ j < 4,
       (j ∈ idxTrain [2, 0, 3, 1] 4 ↔ j ∉ idxCal [2, 0, 3, 1] 4))) :=
  ⟨by decide, split_disjoint_equal_sizes 4 [2, 0, 3, 1] (by decide)⟩

/-- C1: for a nonempty calibration score list and `0 < α < 1`, the
conformal threshold is one of the scores and is the
`⌈(1−α)(n+1)⌉`-th smallest score in the order-statistic sense: when the
rank `k = ⌈(1−α)(n+1)⌉` is at most `n`, at least `k` scores are `≤` the
threshold and at least `n − k + 1` scores are `≥` it; when the rank
exceeds `n`, the threshold is the maximum score.  One such threshold is
derived per group by `groupThreshold` (joint/groupwise modes) and one
globally by `runMarginalAbs` (marginal mode). -/
theorem conformalThreshold_is_corrected_order_statistic (α : ℚ)
    (scores : List ℚ) (h0 : 0 < α) (h1 : α < 1) (h : scores ≠ []) :
    conformalThreshold α scores ∈ scores ∧
    (conformalRank α scores.length ≤ scores.length →
      conformalRank α scores.length ≤
        scores.countP (fun v => decide (v ≤ conformalThreshold α scores)) ∧
      scores.length - conformalRank α scores.length + 1 ≤
        scores.countP (fun v => decide (conformalThreshold α scores ≤ v))) ∧
    (scores.length < conformalRank α scores.length →
      ∀ x ∈ scores, x ≤ conformalThreshold α scores) ∧
    (∀ (cal : List (ℕ × ℚ)) (g : ℕ), groupScores cal g ≠ [] →
      groupThreshold α cal g =
        Except.ok (conformalThreshold α (groupScores cal g))) ∧
    (∀ (cal : List (ℚ × ℚ)) (test : List ℚ),
      runMarginalAbs α cal test = test.map fun yhat =>
        absInterval yhat
          (conformalThreshold α (cal.map fun e => absScore e.1 e.2))) := by
  refine ⟨conformalThreshold_mem α scores h, ?_, ?_, ?_, ?_⟩
  · intro hk
    have hmin : min (conformalRank α scores.length) scores.length =
        conformalRank α scores.length := by omega
    constructor
    · have := le_countP_le_conformalThreshold α scores h1 h
      omega
    · have := le_countP_conformalThreshold_le α scores h1 h
      omega
  · exact conformalThreshold_isMax_of_rank_gt α scores h
  · intro cal g hg
    unfold groupThreshold
    rw [if_neg hg]
  · intro cal test
    rfl

/-- C1 witness: the threshold theorem applied at `α = 1/10` and the
concrete scores `[1, 2, 3, 4, 5]`. -/
theorem conformalThreshold_is_corrected_order_statistic_witness :
    (0 : ℚ) < 1/10 ∧ (1/10 : ℚ) < 1 ∧ ([(1 : ℚ), 2, 3, 4, 5] ≠ []) ∧
    (conformalThreshold (1/10) [(1 : ℚ), 2, 3, 4, 5] ∈ [(1 : ℚ), 2, 3, 4, 5] ∧
    (conformalRank (1/10) ([(1 : ℚ), 2, 3, 4, 5]).length ≤ ([(1 : ℚ), 2, 3, 4, 5]).length →
      conformalRank (1/10) ([(1 : ℚ), 2, 3, 4, 5]).length ≤
        ([(1 : ℚ), 2, 3, 4, 5]).countP
          (fun v => decide (v ≤ conformalThreshold (1/10) [(1 : ℚ), 2, 3, 4, 5])) ∧
      ([(1 : ℚ), 2, 3, 4, 5]).length -
          conformalRank (1/10) ([(1 : ℚ), 2, 3, 4, 5]).length + 1 ≤
        ([(1 : ℚ), 2, 3, 4, 5]).countP
          (fun v => decide (conformalThreshold (1/10) [(1 : ℚ), 2, 3, 4, 5] ≤ v))) ∧
    (([(1 : ℚ), 2, 3, 4, 5]).length < conformalRank (1/10) ([(1 : ℚ), 2, 3, 4, 5]).length →
      ∀ x ∈ [(1 : ℚ), 2, 3, 4, 5], x ≤ conformalThreshold (1/10) [(1 : ℚ), 2, 3, 4, 5]) ∧
    (∀ (cal : List (ℕ × ℚ)) (g : ℕ), groupScores cal g ≠ [] →
      groupThreshold (1/10) cal g =
        Except.ok (conformalThreshold (1/10) (groupScores cal g))) ∧
    (∀ (cal : List (ℚ × ℚ)) (test : List ℚ),
      runMarginalAbs (1/10) cal test = test.map fun yhat =>
        absInterval yhat
          (conformalThreshold (1/10) (cal.map fun e => absScore e.1 e.2)))) :=
  ⟨by norm_num, by norm_num, by decide,
    conformalThreshold_is_corrected_order_statistic (1/10) [(1 : ℚ), 2, 3, 4, 5]
      (by norm_num) (by norm_num) (by decide)⟩

/-- C4: for a fixed calibration score list, increasing the miscoverage
level α never increases the threshold, and hence never increases the
length `upper − lower` of the returned interval, for both the
absolute-residual and the quantile-residual interval shapes at any fixed
test prediction. -/
theorem interval_length_antitone_in_alpha (α α2 : ℚ) (scores : List ℚ)
    (h0 : 0 < α) (hle : α ≤ α2) (h2 : α2 < 1) (h : scores ≠ []) :
    conformalThreshold α2 scores ≤ conformalThreshold α scores ∧
    (∀ yhat : ℚ,
      (absInterval yhat (conformalThreshold α2 scores)).2 -
        (absInterval yhat (conformalThreshold α2 scores)).1 ≤
      (absInterval yhat (conformalThreshold α scores)).2 -
        (absInterval yhat (conformalThreshold α scores)).1) ∧
    (∀ lo hi : ℚ,
      (quantileInterval lo hi (conformalThreshold α2 scores)).2 -
        (quantileInterval lo hi (conformalThreshold α2 scores)).1 ≤
      (quantileInterval lo hi (conformalThreshold α scores)).2 -
        (quantileInterval lo hi (conformalThreshold α scores)).1) := by
  have hq : conformalThreshold α2 scores ≤ conformalThreshold α scores :=
    conformalThreshold_antitone α α2 scores h hle h2
  refine ⟨hq, ?_, ?_⟩
  · intro yhat
    simp only [absInterval]
    linarith
  · intro lo hi
    simp only [quantileInterval]
    linarith

/-- C4 witness: the monotonicity theorem applied at `α = 1/10`,
`α' = 1/2` and the concrete scores `[1, 2, 3]`. -/
theorem interval_length_antitone_in_alpha_witness :
    (0 : ℚ) < 1/10 ∧ (1/10 : ℚ) ≤ 1/2 ∧ (1/2 : ℚ) < 1 ∧
    ([(1 : ℚ), 2, 3] ≠ []) ∧
    (conformalThreshold (1/2) [(1 : ℚ), 2, 3] ≤
      conformalThreshold (1/10) [(1 : ℚ), 2, 3] ∧
    (∀ yhat : ℚ,
      (absInterval yhat (conformalThreshold (1/2) [(1 : ℚ), 2, 3])).2 -
        (absInterval yhat (conformalThreshold (1/2) [(1 : ℚ), 2, 3])).1 ≤
      (absInterval yhat (conformalThreshold (1/10) [(1 : ℚ), 2, 3])).2 -
        (absInterval yhat (conformalThreshold (1/10) [(1 : ℚ), 2, 3])).1) ∧
    (∀ lo hi : ℚ,
      (quantileInterval lo hi (conformalThreshold (1/2) [(1 : ℚ), 2, 3])).2 -
        (quantileInterval lo hi (conformalThreshold (1/2) [(1 : ℚ), 2, 3])).1 ≤
      (quantileInterval lo hi (conformalThreshold (1/10) [(1 : ℚ), 2, 3])).2 -
        (quantileInterval lo hi (conformalThreshold (1/10) [(1 : ℚ), 2, 3])).1)) :=
  ⟨by norm_num, by norm_num, by norm_num, by decide,
    interval_length_antitone_in_alpha (1/10) (1/2) [(1 : ℚ), 2, 3]
      (by norm_num) (by norm_num) (by norm_num) (by decide)⟩

/-- C5: the score and interval operations of both scoring policies are
mutually consistent round-trips: an example whose nonconformity score
equals the threshold `q` lies exactly on the boundary of the interval
produced with threshold `q`, and membership of `y` in the interval is
equivalent to `score ≤ q` (so checking containment reproduces the sign
of `score − q`). -/
theorem score_interval_consistency :
    ∀ yhat y q : ℚ,
      (absScore yhat y = q →
        y = (absInterval yhat q).1 ∨ y = (absInterval yhat q).2) ∧
      (((absInterval yhat q).1 ≤ y ∧ y ≤ (absInterval yhat q).2) ↔
        absScore yhat y ≤ q) ∧
      ∀ lo hi : ℚ,
        (quantileScore lo hi y = q →
          y = (quantileInterval lo hi q).1 ∨ y = (quantileInterval lo hi q).2) ∧
        (((quantileInterval lo hi q).1 ≤ y ∧ y ≤ (quantileInterval lo hi q).2) ↔
          quantileScore lo hi y ≤ q) := by
  intro yhat y q
  refine ⟨?_, ?_, ?_⟩
  · intro hs
    unfold absScore at hs
    unfold absInterval
    rcases abs_cases (y - yhat) with ⟨he, _⟩ | ⟨he, _⟩
    · right
      rw [he] at hs
      simp only
      linarith
    · left
      rw [he] at hs
      simp only
      linarith
  · unfold absScore absInterval
    rw [abs_le]
    constructor
    · rintro ⟨ha, hb⟩
      constructor <;> simp only at ha hb <;> linarith
    · rintro ⟨ha, hb⟩
      constructor <;> simp only <;> linarith
  · intro lo hi
    constructor
    · intro hs
      unfold quantileScore at hs
      unfold quantileInterval
      rcases max_cases (lo - y) (y - hi) with ⟨he, _⟩ | ⟨he, _⟩
      · left
        rw [he] at hs
        simp only
        linarith
      · right
        rw [he] at hs
        simp only
        linarith
    · unfold quantileScore quantileInterval
      rw [max_le_iff]
      constructor
      · rintro ⟨ha, hb⟩
        constructor <;> simp only at ha hb <;> linarith
      · rintro ⟨ha, hb⟩
        constructor <;> simp only <;> linarith

/-- C5 witness: the consistency theorem applied at the concrete example
`ŷ = 0`, `y = 2`, `q = 2` (score exactly equal to the threshold), whose
response lies on the interval boundary. -/
theorem score_interval_consistency_witness :
    absScore 0 2 = 2 ∧
    ((2 : ℚ) = (absInterval 0 2).1 ∨ (2 : ℚ) = (absInterval 0 2).2) :=
  ⟨by norm_num [absScore], (score_interval_consistency 0 2 2).1 (by norm_num [absScore])⟩

/-- C6: the quantile-residual score equals `max(ŷ_low − y, y − ŷ_high)`,
is positive exactly when `y` falls outside `[ŷ_low, ŷ_high]`, and for
`y` strictly inside the interval it is negative with magnitude equal to
the distance from `y` to the nearest of the two bounds. -/
theorem quantileScore_outside_inside :
    ∀ lo hi y : ℚ,
      quantileScore lo hi y = max (lo - y) (y - hi) ∧
      (0 < quantileScore lo hi y ↔ (y < lo ∨ hi < y)) ∧
      (lo < y → y < hi →
        quantileScore lo hi y < 0 ∧
        quantileScore lo hi y = -(min (y - lo) (hi - y))) := by
  intro lo hi y
  refine ⟨rfl, ?_, ?_⟩
  · unfold quantileScore
    rw [lt_max_iff]
    constructor
    · rintro (hc | hc)
      · left; linarith
      · right; linarith
    · rintro (hc | hc)
      · left; linarith
      · right; linarith
  · intro hlo hhi
    constructor
    · unfold quantileScore
      rw [max_lt_iff]
      constructor <;> linarith
    · unfold quantileScore
      rw [show lo - y = -(y - lo) by ring, show y - hi = -(hi - y) by ring,
        max_neg_neg]

/-- C6 witness: the quantile score theorem applied at `lo = 1`, `hi = 3`,
`y = 2` (a response strictly inside the quantile band). -/
theorem quantileScore_outside_inside_witness :
    (1 : ℚ) < 2 ∧ (2 : ℚ) < 3 ∧
    quantileScore 1 3 2 < 0 ∧
    quantileScore 1 3 2 = -(min ((2 : ℚ) - 1) ((3 : ℚ) - 2)) :=
  ⟨by norm_num, by norm_num,
    ((quantileScore_outside_inside 1 3 2).2.2 (by norm_num) (by norm_num)).1,
    ((quantileScore_outside_inside 1 3 2).2.2 (by norm_num) (by norm_num)).2⟩

/-- C7: grouped prediction fails with `InsufficientCalibrationDataError`
exactly when some test example carries a group label with no calibration
example of that group; otherwise it returns intervals (no silent
fallback to marginal behaviour). -/
theorem grouped_insufficient_calibration_iff (α : ℚ)
    (cal : List (ℕ × ℚ × ℚ)) :
    ∀ test : List (ℕ × ℚ),
      runGroupedAbs α cal test =
          Except.error ConformalError.insufficientCalibrationData ↔
        ∃ t ∈ test, ∀ c ∈ cal, c.1 ≠ t.1 := by
  have hempty : ∀ g : ℕ,
      groupScores (cal.map fun e => (e.1, absScore e.2.1 e.2.2)) g = [] ↔
        ∀ c ∈ cal, c.1 ≠ g := by
    intro g
    unfold groupScores
    rw [List.map_eq_nil_iff, List.filter_eq_nil_iff]
    constructor
    · intro hf c hc hgc
      exact absurd (by simp [hgc])
        (hf (g, absScore c.2.1 c.2.2) (List.mem_map.mpr ⟨c, hc, by rw [hgc]⟩))
    · intro hf p hp
      obtain ⟨c, hc, rfl⟩ := List.mem_map.mp hp
      simp only [beq_iff_eq]
      exact hf c hc
  intro test
  induction test with
  | nil =>
    simp [runGroupedAbs]
  | cons t ts ih =>
    by_cases hg : groupScores (cal.map fun e => (e.1, absScore e.2.1 e.2.2)) t.1 = []
    · simp only [runGroupedAbs, groupThreshold, if_pos hg]
      constructor
      · intro _
        exact ⟨t, List.mem_cons_self t ts, (hempty t.1).mp hg⟩
      · intro _
        rfl
    · simp only [runGroupedAbs, groupThreshold, if_neg hg]
      rcases hrec : runGroupedAbs α cal ts with e | out
      · simp only [bind, Except.bind, hrec]
        cases e
        constructor
        · intro _
          obtain ⟨t2, ht2, hall⟩ := (ih).mp hrec
          exact ⟨t2, List.mem_cons_of_mem t ht2, hall⟩
        · intro _
          trivial
      · simp only [bind, Except.bind, hrec]
        constructor
        · intro hco
          cases hco
        · rintro ⟨t2, ht2, hall⟩
          rcases List.mem_cons.mp ht2 with rfl | ht2
          · exact absurd ((hempty t2.1).mpr hall) hg
          · have : runGroupedAbs α cal ts =
                Except.error ConformalError.insufficientCalibrationData :=
              (ih).mpr ⟨t2, ht2, hall⟩
            rw [this] at hrec
            cases hrec

/-- C7 witness: a concrete run in which the test example's group `1` has
no calibration example, so prediction fails with the error. -/
theorem grouped_insufficient_calibration_iff_witness :
    runGroupedAbs (1/2) [(0, 0, 0)] [(1, 5)] =
      Except.error ConformalError.insufficientCalibrationData :=
  (grouped_insufficient_calibration_iff (1/2) [(0, 0, 0)] [(1, 5)]).mpr
    ⟨(1, 5), by decide, by decide⟩

/-- C8: the pipeline, with the seeded random source made explicit as the
permutation value it produces (the only nondeterminism source per the
spec), is deterministic: two runs fed the same random-source value, the
same data, the same miscoverage level and the same test inputs produce
identical split index sets, an identical threshold, and identical
prediction intervals. -/
theorem pipeline_deterministic (p1 p2 : List ℕ) (d1 d2 : List (ℚ × ℚ))
    (a1 a2 : ℚ) (t1 t2 : List ℚ)
    (hp : p1 = p2) (hd : d1 = d2) (ha : a1 = a2) (ht : t1 = t2) :
    (pipelineAbs p1 d1 a1 t1).train = (pipelineAbs p2 d2 a2 t2).train ∧
    (pipelineAbs p1 d1 a1 t1).cal = (pipelineAbs p2 d2 a2 t2).cal ∧
    (pipelineAbs p1 d1 a1 t1).threshold = (pipelineAbs p2 d2 a2 t2).threshold ∧
    (pipelineAbs p1 d1 a1 t1).intervals = (pipelineAbs p2 d2 a2 t2).intervals := by
  subst hp
  subst hd
  subst ha
  subst ht
  exact ⟨rfl, rfl, rfl, rfl⟩

/-- C8 witness: the determinism theorem applied at a concrete seed-derived
permutation, data set, miscoverage level and test set. -/
theorem pipeline_deterministic_witness :
    ([1, 0] : List ℕ) = [1, 0] ∧
    ([((0 : ℚ), 1), (2, 2)] : List (ℚ × ℚ)) = [((0 : ℚ), 1), (2, 2)] ∧
    (1/2 : ℚ) = 1/2 ∧ ([(3 : ℚ)] : List ℚ) = [(3 : ℚ)] ∧
    ((pipelineAbs [1, 0] [((0 : ℚ), 1), (2, 2)] (1/2) [(3 : ℚ)]).train =
      (pipelineAbs [1, 0] [((0 : ℚ), 1), (2, 2)] (1/2) [(3 : ℚ)]).train ∧
    (pipelineAbs [1, 0] [((0 : ℚ), 1), (2, 2)] (1/2) [(3 : ℚ)]).cal =
      (pipelineAbs [1, 0] [((0 : ℚ), 1), (2, 2)] (1/2) [(3 : ℚ)]).cal ∧
    (pipelineAbs [1, 0] [((0 : ℚ), 1), (2, 2)] (1/2) [(3 : ℚ)]).threshold =
      (pipelineAbs [1, 0] [((0 : ℚ), 1), (2, 2)] (1/2) [(3 : ℚ)]).threshold ∧
    (pipelineAbs [1, 0] [((0 : ℚ), 1), (2, 2)] (1/2) [(3 : ℚ)]).intervals =
      (pipelineAbs [1, 0] [((0 : ℚ), 1), (2, 2)] (1/2) [(3 : ℚ)]).intervals) :=
  ⟨rfl, rfl, rfl, rfl,
    pipeline_deterministic [1, 0] [1, 0] [((0 : ℚ), 1), (2, 2)]
      [((0 : ℚ), 1), (2, 2)] (1/2) (1/2) [(3 : ℚ)] [(3 : ℚ)] rfl rfl rfl rfl⟩

theorem groupScores_absmap_nonneg (cal : List (ℕ × ℚ × ℚ)) (g : ℕ) :
    ∀ v ∈ groupScores (cal.map fun e => (e.1, absScore e.2.1 e.2.2)) g, 0 ≤ v := by
  intro v hv
  unfold groupScores at hv
  obtain ⟨p, hp, rfl⟩ := List.mem_map.mp hv
  obtain ⟨c, hc, rfl⟩ := List.mem_map.mp (List.mem_filter.mp hp).1
  unfold absScore
  exact abs_nonneg _

/-- C2 counterexample: the claim as stated asserts `lower ≤ upper` for
every returned interval, even for quantile-residual intervals with a
negative threshold; but with `α = 1/2`, one calibration example whose
response sits deep inside a wide quantile band (nonconformity score
`−5`) and a narrow test band `(0, 1)`, the marginal CQR run returns the
interval `(5, −4)`, whose lower bound exceeds its upper bound. -/
theorem interval_lower_le_upper_counterexample :
    runMarginalQuantile (1/2) [(((0 : ℚ), (10 : ℚ)), (5 : ℚ))]
        [((0 : ℚ), (1 : ℚ))] = [((5 : ℚ), (-4 : ℚ))] ∧
    ¬ ((5 : ℚ) ≤ -4) := by
  have hsc : quantileScore 0 10 5 = -5 := by
    unfold quantileScore
    rw [show (0 : ℚ) - 5 = -5 by norm_num, show (5 : ℚ) - 10 = -5 by norm_num,
      max_self]
  have hrank : conformalRank (1/2) 1 = 1 := by
    unfold conformalRank
    rw [show (1 - (1/2 : ℚ)) * (((1 : ℕ) : ℚ) + 1) = 1 by push_cast; norm_num]
    rw [Int.ceil_one]
    rfl
  have hthr : conformalThreshold (1/2) [(-5 : ℚ)] = -5 := by
    unfold conformalThreshold
    simp [hrank]
  constructor
  · unfold runMarginalQuantile
    simp only [List.map_cons, List.map_nil, hsc, hthr]
    unfold quantileInterval
    norm_num
  · norm_num

/-- C2 (amended): in every calibration mode, intervals produced under
absolute-residual scoring satisfy `lower ≤ upper` (the threshold is
itself an absolute-residual score, hence nonnegative); a
quantile-residual interval `[ŷ_low − q, ŷ_high + q]` satisfies
`lower ≤ upper` exactly when `ŷ_low − ŷ_high ≤ 2q` — in particular
whenever `ŷ_low ≤ ŷ_high` and `q ≥ 0` — but this can fail when the
threshold `q` is negative. -/
theorem interval_lower_le_upper_amended (α : ℚ) (h0 : 0 < α) (h1 : α < 1) :
    (∀ (cal : List (ℚ × ℚ)) (test : List ℚ), cal ≠ [] →
      ∀ p ∈ runMarginalAbs α cal test, p.1 ≤ p.2) ∧
    (∀ (cal : List (ℕ × ℚ × ℚ)) (test : List (ℕ × ℚ)) (out : List (ℚ × ℚ)),
      runGroupedAbs α cal test = Except.ok out → ∀ p ∈ out, p.1 ≤ p.2) ∧
    (∀ lo hi q : ℚ, lo - hi ≤ 2 * q ↔
      (quantileInterval lo hi q).1 ≤ (quantileInterval lo hi q).2) := by
  refine ⟨?_, ?_, ?_⟩
  · intro cal test hcal p hp
    unfold runMarginalAbs at hp
    obtain ⟨yhat, _, rfl⟩ := List.mem_map.mp hp
    set scores := cal.map fun e => absScore e.1 e.2 with hscores
    have hsne : scores ≠ [] := by
      rw [hscores, Ne, List.map_eq_nil_iff]
      exact hcal
    have hqmem : conformalThreshold α scores ∈ scores :=
      conformalThreshold_mem α scores hsne
    obtain ⟨e, _, heq⟩ := List.mem_map.mp hqmem
    have hq0 : 0 ≤ conformalThreshold α scores := by
      rw [← heq]
      unfold absScore
      exact abs_nonneg _
    unfold absInterval
    simp only
    linarith
  · intro cal test
    induction test with
    | nil =>
      intro out hout p hp
      simp only [runGroupedAbs] at hout
      cases hout
      cases hp
    | cons t ts ih =>
      intro out hout p hp
      by_cases hg : groupScores (cal.map fun e => (e.1, absScore e.2.1 e.2.2)) t.1 = []
      · simp only [runGroupedAbs, groupThreshold, if_pos hg] at hout
        cases hout
      · simp only [runGroupedAbs, groupThreshold, if_neg hg] at hout
        rcases hrec : runGroupedAbs α cal ts with e | rest
        · rw [hrec] at hout
          simp only [bind, Except.bind] at hout
          cases hout
        · rw [hrec] at hout
          simp only [bind, Except.bind, pure, Except.pure, Except.ok.injEq] at hout
          subst hout
          rcases List.mem_cons.mp hp with rfl | hp2
          · have hqmem :
                conformalThreshold α
                  (groupScores (cal.map fun e => (e.1, absScore e.2.1 e.2.2)) t.1) ∈
                groupScores (cal.map fun e => (e.1, absScore e.2.1 e.2.2)) t.1 :=
              conformalThreshold_mem α _ hg
            have hq0 := groupScores_absmap_nonneg cal t.1 _ hqmem
            unfold absInterval
            simp only
            linarith
          · exact ih rest hrec p hp2
  · intro lo hi q
    unfold quantileInterval
    constructor
    · intro hle
      simp only
      linarith
    · intro hle
      simp only at hle
      linarith

/-- C2 witness: the amended theorem applied at `α = 1/2`. -/
theorem interval_lower_le_upper_amended_witness :
    (0 : ℚ) < 1/2 ∧ (1/2 : ℚ) < 1 ∧
    ((∀ (cal : List (ℚ × ℚ)) (test : List ℚ), cal ≠ [] →
      ∀ p ∈ runMarginalAbs (1/2) cal test, p.1 ≤ p.2) ∧
    (∀ (cal : List (ℕ × ℚ × ℚ)) (test : List (ℕ × ℚ)) (out : List (ℚ × ℚ)),
      runGroupedAbs (1/2) cal test = Except.ok out → ∀ p ∈ out, p.1 ≤ p.2) ∧
    (∀ lo hi q : ℚ, lo - hi ≤ 2 * q ↔
      (quantileInterval lo hi q).1 ≤ (quantileInterval lo hi q).2)) :=
  ⟨by norm_num, by norm_num,
    interval_lower_le_upper_amended (1/2) (by norm_num) (by norm_num)⟩

/-- Modelled from the spec: finite exchangeability surrogate of the
coverage guarantee.  `vs` is the combined list of the calibration scores
together with the test score; index `i` is covered when its score is at
most the threshold computed from the remaining scores.  Under
exchangeability every index plays the test role with equal probability
`1/(n+1)`, so the coverage probability of the split conformal predictor,
conditional on the combined score multiset, is
`coverageCount / vs.length`. -/
def coveredIdx (α : ℚ) (vs : List ℚ) (i : ℕ) : Bool :=
  decide (vs.getD i 0 ≤ conformalThreshold α (vs.eraseIdx i))

/-- Modelled from the spec: the number of covered indices of the
combined score list (see `coveredIdx`). -/
def coverageCount (α : ℚ) (vs : List ℚ) : ℕ :=
  (List.range vs.length).countP fun i => coveredIdx α vs i

/-- Modelled from the spec: leave-one-out coverage of index `i` of a
group-labelled combined score list under the marginal (pooled)
threshold. -/
def coveredIdxMarginal (α : ℚ) (vs : List (ℕ × ℚ)) (i : ℕ) : Bool :=
  decide ((vs.getD i (0, 0)).2 ≤
    conformalThreshold α ((vs.eraseIdx i).map fun e => e.2))

/-- Modelled from the spec: the number of indices of group `g` covered
under the marginal (pooled) threshold. -/
def groupCoverageCountMarginal (α : ℚ) (vs : List (ℕ × ℚ)) (g : ℕ) : ℕ :=
  (List.range vs.length).countP fun i =>
    ((vs.getD i (0, 0)).1 == g) && coveredIdxMarginal α vs i

/-- Number of members of group `g` in a group-labelled score list. -/
def groupCount (vs : List (ℕ × ℚ)) (g : ℕ) : ℕ :=
  vs.countP fun e => e.1 == g

/-! Counting lemmas for the finitary coverage bound. -/

theorem countP_range_getD (Q : ℚ → Bool) (d : ℚ) :
    ∀ l : List ℚ,
      (List.range l.length).countP (fun i => Q (l.getD i d)) = l.countP Q := by
  intro l
  induction l with
  | nil => rfl
  | cons a t ih =>
    rw [List.length_cons, List.range_succ_eq_map, List.countP_cons,
      List.countP_map, List.countP_cons]
    have hcomp :
        ((fun i => Q ((a :: t).getD i d)) ∘ Nat.succ) =
          fun i => Q (t.getD i d) := rfl
    rw [hcomp, ih]
    rfl

theorem sorted_countP_lt_getElem_le (l : List ℚ)
    (hl : List.Sorted (· ≤ ·) l) (j : ℕ) (hj : j < l.length) :
    l.countP (fun v => decide (v < l[j])) ≤ j := by
  have hsplit : l.take j ++ l.drop j = l := List.take_append_drop j l
  calc l.countP (fun v => decide (v < l[j]))
      = (l.take j ++ l.drop j).countP (fun v => decide (v < l[j])) := by
        rw [hsplit]
    _ = (l.take j).countP (fun v => decide (v < l[j])) +
        (l.drop j).countP (fun v => decide (v < l[j])) :=
        List.countP_append _ _ _
    _ ≤ j + 0 := by
        apply Nat.add_le_add
        · calc (l.take j).countP (fun v => decide (v < l[j]))
              ≤ (l.take j).length := List.countP_le_length _
            _ ≤ j := by rw [List.length_take]; omega
        · apply Nat.le_of_eq
          rw [List.countP_eq_zero]
          intro x hx
          simp only [decide_eq_true_eq, not_lt]
          exact sorted_getElem_le_of_mem_drop l hl j hj x hx
    _ = j := by omega

theorem le_countP_few_below (l : List ℚ) (k : ℕ) :
    min k l.length ≤
      l.countP fun x =>
        decide (l.countP (fun v => decide (v < x)) ≤ k - 1) := by
  set s := List.insertionSort (· ≤ ·) l with hs
  have hperm : s.Perm l := List.perm_insertionSort (· ≤ ·) l
  have hsorted : List.Sorted (· ≤ ·) s := List.sorted_insertionSort (· ≤ ·) l
  have hlen : s.length = l.length := hperm.length_eq
  have hQ : (fun x => decide (l.countP (fun v => decide (v < x)) ≤ k - 1)) =
      fun x => decide (s.countP (fun v => decide (v < x)) ≤ k - 1) := by
    funext x
    rw [hperm.countP_eq]
  rw [hQ, ← hperm.countP_eq]
  have hall : ∀ x ∈ s.take (min k l.length),
      decide (s.countP (fun v => decide (v < x)) ≤ k - 1) = true := by
    intro x hx
    obtain ⟨j, hj, hget⟩ := List.getElem_of_mem hx
    have hjlt : j < min k l.length := by
      simp only [List.length_take] at hj
      omega
    rw [List.getElem_take] at hget
    subst hget
    apply decide_eq_true
    have hjs : j < s.length := by omega
    have := sorted_countP_lt_getElem_le s hsorted j hjs
    omega
  calc min k l.length
      = (s.take (min k l.length)).length := by
        rw [List.length_take]
        omega
    _ = (s.take (min k l.length)).countP
          (fun x => decide (s.countP (fun v => decide (v < x)) ≤ k - 1)) :=
        (List.countP_eq_length.mpr hall).symm
    _ ≤ s.countP (fun x => decide (s.countP (fun v => decide (v < x)) ≤ k - 1)) :=
        (List.take_sublist _ _).countP_le _

theorem coveredIdx_of_few_below (α : ℚ) (vs : List ℚ) (i : ℕ)
    (h1 : α < 1) (hi : i < vs.length)
    (hk : conformalRank α (vs.length - 1) ≤ vs.length - 1)
    (hfew : vs.countP (fun v => decide (v < vs.getD i 0)) ≤
      conformalRank α (vs.length - 1) - 1) :
    coveredIdx α vs i = true := by
  set k := conformalRank α (vs.length - 1) with hkdef
  have hk1 : 1 ≤ k := conformalRank_pos α (vs.length - 1) h1
  set e := vs.eraseIdx i with he
  have helen : e.length = vs.length - 1 := by
    rw [he, List.length_eraseIdx]
    simp [hi]
  have hene : e ≠ [] := by
    rw [← List.length_pos]
    omega
  unfold coveredIdx
  apply decide_eq_true
  by_contra hlt
  push_neg at hlt
  have hcnt := le_countP_le_conformalThreshold α e h1 hene
  rw [helen] at hcnt
  have hmin : min k (vs.length - 1) = k := by omega
  rw [hmin] at hcnt
  have hmono : e.countP (fun v => decide (v ≤ conformalThreshold α e)) ≤
      e.countP (fun v => decide (v < vs.getD i 0)) := by
    apply List.countP_mono_left
    intro a _ ha
    apply decide_eq_true
    have := of_decide_eq_true ha
    linarith
  have hsub : e.countP (fun v => decide (v < vs.getD i 0)) ≤
      vs.countP (fun v => decide (v < vs.getD i 0)) :=
    (List.eraseIdx_sublist vs i).countP_le _
  omega

theorem finitary_coverage_bound (α : ℚ) (h0 : 0 < α) (h1 : α < 1)
    (vs : List ℚ) (hne : vs ≠ [])
    (hk : conformalRank α (vs.length - 1) ≤ vs.length - 1) :
    (1 - α) * (vs.length : ℚ) ≤ (coverageCount α vs : ℚ) := by
  set k := conformalRank α (vs.length - 1) with hkdef
  have hm : 0 < vs.length := List.length_pos.mpr hne
  have hcount : k ≤ coverageCount α vs := by
    unfold coverageCount
    have hmono : (List.range vs.length).countP
          (fun i => decide (vs.countP (fun v => decide (v < vs.getD i 0)) ≤ k - 1)) ≤
        (List.range vs.length).countP (fun i => coveredIdx α vs i) := by
      apply List.countP_mono_left
      intro i hi hdec
      exact coveredIdx_of_few_below α vs i h1 (List.mem_range.mp hi) hk
        (of_decide_eq_true hdec)
    have hrange := countP_range_getD
      (fun x => decide (vs.countP (fun v => decide (v < x)) ≤ k - 1)) 0 vs
    have hfew := le_countP_few_below vs k
    have hminmk : min k vs.length = k := by omega
    omega
  have hcast : (k : ℚ) ≤ (coverageCount α vs : ℚ) := by
    exact_mod_cast hcount
  have hrb := conformalRank_le_of_rankBound α (vs.length - 1) h1.le
  have hlen : ((vs.length - 1 : ℕ) : ℚ) + 1 = (vs.length : ℚ) := by
    have : (1 : ℕ) ≤ vs.length := hm
    push_cast [this]
    ring
  rw [hlen] at hrb
  calc (1 - α) * (vs.length : ℚ) ≤ (k : ℚ) := hrb
    _ ≤ (coverageCount α vs : ℚ) := hcast

/-- C9 counterexample: the claim as stated asserts the marginal coverage
guarantee for every `0 < α < 1`, but the threshold clips the rank
`⌈(1−α)(n+1)⌉` to the maximum score when it exceeds `n`, and in that
regime the guarantee fails: for `α = 1/10` and the combined
calibration-plus-test score list `[0, 1]` (one calibration score,
`n = 1`, rank `⌈(9/10)·2⌉ = 2 > 1`), only one of the two exchangeable
test positions is covered, a coverage fraction of `1/2 < 9/10`. -/
theorem coverage_guarantee_counterexample :
    ([(0 : ℚ), 1]).length = 2 ∧
    coverageCount (1/10) [(0 : ℚ), 1] = 1 ∧
    ¬ ((1 - (1/10 : ℚ)) * 2 ≤ 1) := by
  have hrank : conformalRank (1/10) 1 = 2 := by
    unfold conformalRank
    rw [show (1 - (1/10 : ℚ)) * (((1 : ℕ) : ℚ) + 1) = 9/5 by push_cast; norm_num]
    rw [show (⌈(9/5 : ℚ)⌉ : ℤ) = 2 by rw [Int.ceil_eq_iff] <;> norm_num]
    rfl
  have hthr1 : conformalThreshold (1/10) [(1 : ℚ)] = 1 := by
    unfold conformalThreshold
    simp [hrank]
  have hthr0 : conformalThreshold (1/10) [(0 : ℚ)] = 0 := by
    unfold conformalThreshold
    simp [hrank]
  refine ⟨rfl, ?_, by norm_num⟩
  have cov0 : coveredIdx (1/10) [(0 : ℚ), 1] 0 = true := by
    show decide ((0 : ℚ) ≤ conformalThreshold (1/10) [(1 : ℚ)]) = true
    rw [hthr1]
    exact decide_eq_true (by norm_num)
  have cov1 : coveredIdx (1/10) [(0 : ℚ), 1] 1 = false := by
    show decide ((1 : ℚ) ≤ conformalThreshold (1/10) [(0 : ℚ)]) = false
    rw [hthr0]
    exact decide_eq_false (by norm_num)
  unfold coverageCount
  rw [show List.range (List.length [(0 : ℚ), 1]) = [0, 1] from rfl]
  rw [List.countP_cons, List.countP_cons, List.countP_nil, cov0, cov1]
  rfl

/-- C9 (amended): in the finite exchangeability surrogate (the combined
calibration-plus-test score list is fixed and each index plays the test
role with equal probability), marginal mode guarantees coverage of at
least a `(1−α)` fraction of the `n+1` test roles provided the corrected
rank `⌈(1−α)(n+1)⌉` does not exceed the calibration size `n` (otherwise
the clipped threshold can undercover — see the counterexample); the
grouped modes satisfy the identical per-group bound on each group's own
calibration scores; and marginal mode does not guarantee the per-group
version: on a concrete two-group data set, group `1` holds one of the
four scores and none of its test roles is covered under the pooled
marginal threshold at `α = 1/4`, a per-group coverage of `0 < 3/4`. -/
theorem finitary_coverage_guarantee (α : ℚ) (h0 : 0 < α) (h1 : α < 1) :
    (∀ vs : List ℚ, vs ≠ [] →
      conformalRank α (vs.length - 1) ≤ vs.length - 1 →
      (1 - α) * (vs.length : ℚ) ≤ (coverageCount α vs : ℚ)) ∧
    (∀ (cal : List (ℕ × ℚ)) (g : ℕ), groupScores cal g ≠ [] →
      conformalRank α ((groupScores cal g).length - 1) ≤
        (groupScores cal g).length - 1 →
      (1 - α) * ((groupScores cal g).length : ℚ) ≤
        (coverageCount α (groupScores cal g) : ℚ)) ∧
    (groupCount [((0 : ℕ), (0 : ℚ)), (0, 0), (0, 0), (1, 100)] 1 = 1 ∧
     groupCoverageCountMarginal (1/4)
       [((0 : ℕ), (0 : ℚ)), (0, 0), (0, 0), (1, 100)] 1 = 0 ∧
     ¬ ((1 - (1/4 : ℚ)) *
          ((groupCount [((0 : ℕ), (0 : ℚ)), (0, 0), (0, 0), (1, 100)] 1 : ℕ) : ℚ) ≤
        ((groupCoverageCountMarginal (1/4)
          [((0 : ℕ), (0 : ℚ)), (0, 0), (0, 0), (1, 100)] 1 : ℕ) : ℚ))) := by
  have hrank3 : conformalRank (1/4) 3 = 3 := by
    unfold conformalRank
    rw [show (1 - (1/4 : ℚ)) * (((3 : ℕ) : ℚ) + 1) = 3 by push_cast; norm_num]
    rw [show (⌈(3 : ℚ)⌉ : ℤ) = 3 by
      rw [show (3 : ℚ) = ((3 : ℤ) : ℚ) by norm_num, Int.ceil_intCast]]
    rfl
  have hthr3 : conformalThreshold (1/4) [(0 : ℚ), 0, 0] = 0 := by
    unfold conformalThreshold
    rw [show List.length [(0 : ℚ), 0, 0] = 3 from rfl, hrank3]
    rfl
  have hcov3 : coveredIdxMarginal (1/4)
      [((0 : ℕ), (0 : ℚ)), (0, 0), (0, 0), (1, 100)] 3 = false := by
    show decide ((100 : ℚ) ≤ conformalThreshold (1/4) [(0 : ℚ), 0, 0]) = false
    rw [hthr3]
    exact decide_eq_false (by norm_num)
  have hgcc : groupCoverageCountMarginal (1/4)
      [((0 : ℕ), (0 : ℚ)), (0, 0), (0, 0), (1, 100)] 1 = 0 := by
    unfold groupCoverageCountMarginal
    rw [List.countP_eq_zero]
    intro i hi
    rw [show List.range
        (List.length [((0 : ℕ), (0 : ℚ)), (0, 0), (0, 0), (1, 100)]) =
      [0, 1, 2, 3] from rfl] at hi
    fin_cases hi
    · intro hcontra
      rw [show ((([((0 : ℕ), (0 : ℚ)), (0, 0), (0, 0), (1, 100)]).getD 0
          ((0 : ℕ), (0 : ℚ))).1 == 1 && coveredIdxMarginal (1/4)
          [((0 : ℕ), (0 : ℚ)), (0, 0), (0, 0), (1, 100)] 0) =
        false from rfl] at hcontra
      cases hcontra
    · intro hcontra
      rw [show ((([((0 : ℕ), (0 : ℚ)), (0, 0), (0, 0), (1, 100)]).getD 1
          ((0 : ℕ), (0 : ℚ))).1 == 1 && coveredIdxMarginal (1/4)
          [((0 : ℕ), (0 : ℚ)), (0, 0), (0, 0), (1, 100)] 1) =
        false from rfl] at hcontra
      cases hcontra
    · intro hcontra
      rw [show ((([((0 : ℕ), (0 : ℚ)), (0, 0), (0, 0), (1, 100)]).getD 2
          ((0 : ℕ), (0 : ℚ))).1 == 1 && coveredIdxMarginal (1/4)
          [((0 : ℕ), (0 : ℚ)), (0, 0), (0, 0), (1, 100)] 2) =
        false from rfl] at hcontra
      cases hcontra
    · intro hcontra
      rw [show ((([((0 : ℕ), (0 : ℚ)), (0, 0), (0, 0), (1, 100)]).getD 3
          ((0 : ℕ), (0 : ℚ))).1 == 1 && coveredIdxMarginal (1/4)
          [((0 : ℕ), (0 : ℚ)), (0, 0), (0, 0), (1, 100)] 3) =
        coveredIdxMarginal (1/4)
          [((0 : ℕ), (0 : ℚ)), (0, 0), (0, 0), (1, 100)] 3 from rfl,
        hcov3] at hcontra
      cases hcontra
  have hgc : groupCount [((0 : ℕ), (0 : ℚ)), (0, 0), (0, 0), (1, 100)] 1 = 1 := rfl
  refine ⟨?_, ?_, hgc, hgcc, ?_⟩
  · intro vs hne hk
    exact finitary_coverage_bound α h0 h1 vs hne hk
  · intro cal g hne hk
    exact finitary_coverage_bound α h0 h1 (groupScores cal g) hne hk
  · rw [hgc, hgcc]
    norm_num

/-- C9 witness: the finitary coverage theorem applied at `α = 1/10`. -/
theorem finitary_coverage_guarantee_witness :
    (0 : ℚ) < 1/10 ∧ (1/10 : ℚ) < 1 ∧
    ((∀ vs : List ℚ, vs ≠ [] →
      conformalRank (1/10) (vs.length - 1) ≤ vs.length - 1 →
      (1 - (1/10 : ℚ)) * (vs.length : ℚ) ≤ (coverageCount (1/10) vs : ℚ)) ∧
    (∀ (cal : List (ℕ × ℚ)) (g : ℕ), groupScores cal g ≠ [] →
      conformalRank (1/10) ((groupScores cal g).length - 1) ≤
        (groupScores cal g).length - 1 →
      (1 - (1/10 : ℚ)) * ((groupScores cal g).length : ℚ) ≤
        (coverageCount (1/10) (groupScores cal g) : ℚ)) ∧
    (groupCount [((0 : ℕ), (0 : ℚ)), (0, 0), (0, 0), (1, 100)] 1 = 1 ∧
     groupCoverageCountMarginal (1/4)
       [((0 : ℕ), (0 : ℚ)), (0, 0), (0, 0), (1, 100)] 1 = 0 ∧
     ¬ ((1 - (1/4 : ℚ)) *
          ((groupCount [((0 : ℕ), (0 : ℚ)), (0, 0), (0, 0), (1, 100)] 1 : ℕ) : ℚ) ≤
        ((groupCoverageCountMarginal (1/4)
          [((0 : ℕ), (0 : ℚ)), (0, 0), (0, 0), (1, 100)] 1 : ℕ) : ℚ)))) :=
  ⟨by norm_num, by norm_num,
    finitary_coverage_guarantee (1/10) (by norm_num) (by norm_num)⟩

end EqualizedCoverage
